import Mathlib

/-!
# Verification of the auto-archiver core

A shallow embedding of the archiving core found in `src/main.ts`: the
classifier (`shouldArchive`, `isTruthy`), the path utilities
(`isInArchive`, `isExcluded`), the target resolvers (`buildArchiveTarget`,
`buildUnarchiveTarget`), the collision resolver (`resolveCollision`), the
per-document orchestrator (`processFile`) and the batch scanner (`scanAll`).

Strings are modelled with Lean `String` (a wrapper around `List Char`);
the JavaScript string idioms used by the source (`trim`, `toLowerCase`,
`lastIndexOf` + `slice`, `startsWith`, `endsWith`, `split`) are given
char-list implementations below.  The document store (Obsidian vault) is
modelled as the set of existing paths, and the asynchronous store calls
become explicit state passing.  The unbounded collision-probe loop takes a
fuel parameter; `none` stands for a call that never returns normally
(an error or divergence escaping `processFile`).  Definitions come first,
then the theorems about them.
-/

namespace AutoArchiver

/-- JS `s.trim()`: strip whitespace from both ends. -/
def trimStr (s : String) : String :=
  ⟨((s.data.dropWhile Char.isWhitespace).reverse.dropWhile Char.isWhitespace).reverse⟩

/-- JS `s.toLowerCase()`. -/
def toLowerStr (s : String) : String := ⟨s.data.map Char.toLower⟩

/-- JS `s.startsWith(pre)`. -/
def strStartsWith (s pre : String) : Bool := pre.data.isPrefixOf s.data

/-- JS `s.endsWith(suf)`. -/
def strEndsWith (s suf : String) : Bool := suf.data.isSuffixOf s.data

/-- Splitting helper: `splitLast c l = some (d, n)` splits `l` around the LAST occurrence of `c`
(so `l = d ++ [c] ++ n` with `c ∉ n`); it is `none` when `c ∉ l`.  This
packages the JS idiom `i = s.lastIndexOf(c)` followed by `s.slice(0, i)` and
`s.slice(i + 1)`, together with the `i === -1` case. -/
def splitLast (c : Char) : List Char → Option (List Char × List Char)
  | [] => none
  | a :: as =>
    match splitLast c as with
    | some (d, n) => some (a :: d, n)
    | none => if a = c then some ([], as) else none

/-- JS `s.replace(/^#/, "")`: drop a single leading hash. -/
def stripHash (s : String) : String :=
  match s.data with
  | c :: rest => if c = '#' then ⟨rest⟩ else s
  | [] => s

/-- JS `s.replace(/\/+$/, "")`: drop trailing slashes. -/
def stripTrailingSlashes (s : String) : String :=
  ⟨(s.data.reverse.dropWhile (fun c => c = '/')).reverse⟩

/-- Modelled from the spec: the document store's path normalization
(spec 4.1 `normalize`), which the source imports from the host API
(`normalizePath` of the `obsidian` package) rather than defining itself:
it canonicalizes separators, collapsing duplicate, leading and trailing
separators into single interior ones. -/
def normalizePath (s : String) : String :=
  ⟨List.intercalate ['/'] ((s.data.splitOn '/').filter (fun t => t ≠ []))⟩

/-- Settings record `AutoArchiverSettings` (src/main.ts lines 13-30). -/
structure AutoArchiverSettings where
  propertyNames : List String
  extraTruthyValues : List String
  tags : List String
  archiveRoot : String
  excludedRoots : List String
  dryRun : Bool
  showNotice : Bool
  unarchiveOnMissingAll : Bool

/-- Defaults `DEFAULT_SETTINGS` (src/main.ts lines 32-41). -/
def DEFAULT_SETTINGS : AutoArchiverSettings :=
  { propertyNames := ["Archived"]
    extraTruthyValues := ["yes", "y", "archived", "done"]
    tags := ["archived"]
    archiveRoot := "Archive"
    excludedRoots := []
    dryRun := false
    showNotice := true
    unarchiveOnMissingAll := true }

/-- A raw JavaScript frontmatter value, as handed over by the metadata
parser: booleans, numbers (integral ones suffice for this code), strings,
arrays, other objects, or null. -/
inductive JSValue where
  | bool (b : Bool)
  | num (n : Int)
  | str (s : String)
  | arr (xs : List JSValue)
  | object
  | null

/-- The relevant part of Obsidian's file cache: parsed frontmatter
(a key/value map, `none` when the note has none) plus the raw inline tag
strings (`cache.tags[i].tag`). -/
structure FileCache where
  frontmatter : Option (List (String × JSValue))
  tags : List String

/-- A markdown file handle: current path, extension, and its metadata
cache (`none` when the cache has no entry for the file). -/
structure TFileM where
  path : String
  extension : String
  cache : Option FileCache

/-- Source `norm` (src/main.ts line 94): `s.trim().toLowerCase()`. -/
def norm (s : String) : String := toLowerStr (trimStr s)

/-- Source `isTruthy` (src/main.ts lines 173-182). -/
def isTruthy (st : AutoArchiverSettings) (v : JSValue) : Bool :=
  match v with
  | .bool b => b
  | .num n => n == 1
  | .str s =>
    let t := norm s
    if t == "true" || t == "1" then true
    else if (st.extraTruthyValues.map norm).contains t then true
    else false
  | _ => false

/-- JS `Object.keys(fm)` access for one key (exact, case-sensitive). -/
def fmLookup (m : List (String × JSValue)) (k : String) : Option JSValue :=
  (m.find? (fun kv => kv.1 == k)).map (fun kv => kv.2)

/-- Normalization applied to every tag: `this.norm(t.replace(/^#/, ""))`. -/
def normTag (t : String) : String := norm (stripHash t)

/-- JS `fmtags.split(/[,\s]+/).filter(Boolean)` (src/main.ts line 151). -/
def splitTags (s : String) : List String :=
  ((s.data.splitOnP (fun c => c == ',' || c.isWhitespace)).map
      (fun l => (⟨l⟩ : String))).filter (fun t => t ≠ "")

/-- Source `shouldArchive` (src/main.ts lines 131-171): any configured frontmatter
property with a truthy value, or any configured tag present (frontmatter
`tags` given as a delimited string or an array, plus inline tags), makes the
verdict true. -/
def shouldArchive (st : AutoArchiverSettings) (cache : Option FileCache) : Bool :=
  let fm := cache.bind (fun c => c.frontmatter)
  let propNames := st.propertyNames.map norm
  let propHit :=
    match fm with
    | some m =>
      if propNames ≠ [] then
        m.any (fun kv => propNames.contains (norm kv.1) && isTruthy st kv.2)
      else false
    | none => false
  if propHit then true
  else
    let fmtags := fm.bind (fun m => fmLookup m "tags")
    let fromFm :=
      match fmtags with
      | some (.str t) => (splitTags t).map normTag
      | some (.arr xs) =>
        xs.filterMap (fun x => match x with | .str t => some (normTag t) | _ => none)
      | _ => []
    let inline := (match cache with | some c => c.tags | none => []).map normTag
    let tagSet := fromFm ++ inline
    if st.tags ≠ [] then
      let targets := st.tags.map normTag
      tagSet.any (fun tg => targets.contains tg)
    else false

/-- The shared prefix-containment test of `isInArchive` and `isExcluded`
(src/main.ts lines 96-109): normalize the root, strip its trailing slashes,
normalize the path, then accept exactly the root itself or the root followed
by a separator. -/
def matchesRoot (r p : String) : Bool :=
  let root := stripTrailingSlashes (normalizePath r)
  let q := normalizePath p
  q == root || strStartsWith q (root ++ "/")

/-- Source `isInArchive` (src/main.ts lines 96-100). -/
def isInArchive (st : AutoArchiverSettings) (p : String) : Bool :=
  matchesRoot st.archiveRoot p

/-- Source `isExcluded` (src/main.ts lines 102-109). -/
def isExcluded (st : AutoArchiverSettings) (p : String) : Bool :=
  if st.excludedRoots.isEmpty then false
  else st.excludedRoots.any (fun r => matchesRoot r p)

/-- A resolved destination: directory plus full path. -/
structure Target where
  dir : String
  full : String
deriving DecidableEq

/-- Source `buildArchiveTarget` (src/main.ts lines 184-194). -/
def buildArchiveTarget (rootSetting path : String) : Target :=
  let archiveRoot := stripTrailingSlashes (normalizePath rootSetting)
  let currentPath := normalizePath path
  let dn := splitLast '/' currentPath.data
  let curDir : String := match dn with | none => "" | some (d, _) => ⟨d⟩
  let fname : String := match dn with | none => currentPath | some (_, n) => ⟨n⟩
  let targetDir := if curDir != "" then archiveRoot ++ "/" ++ curDir else archiveRoot
  ⟨normalizePath targetDir, normalizePath (targetDir ++ "/" ++ fname)⟩

/-- Source `buildUnarchiveTarget` (src/main.ts lines 196-210). -/
def buildUnarchiveTarget (rootSetting path : String) : Option Target :=
  let root := stripTrailingSlashes (normalizePath rootSetting)
  let filePath := normalizePath path
  if !(matchesRoot rootSetting filePath) then none
  else if filePath == root then none
  else
    let withoutRoot : String := ⟨filePath.data.drop (root.data.length + 1)⟩
    let dn := splitLast '/' withoutRoot.data
    let curDir : String := match dn with | none => "" | some (d, _) => ⟨d⟩
    let fname : String := match dn with | none => withoutRoot | some (_, n) => ⟨n⟩
    let dirSafe := if curDir != "" then normalizePath curDir else ""
    let fullSafe :=
      if dirSafe != "" then normalizePath (dirSafe ++ "/" ++ fname)
      else normalizePath fname
    some ⟨dirSafe, fullSafe⟩

/-- The document store as the set of existing paths (files and folders). -/
structure Vault where
  entries : List String
deriving DecidableEq

/-- Existence check `vault.adapter.exists`. -/
def vexists (v : Vault) (p : String) : Bool := v.entries.contains p

/-- Source `ensureFolderExists` (src/main.ts lines 111-128): create each missing
prefix of the normalized folder path ("already exists" tolerated). -/
def ensureFolderExists (v : Vault) (folderPath : String) : Vault :=
  let fp := normalizePath folderPath
  if vexists v fp then v
  else
    let parts := (fp.data.splitOn '/').filter (fun t => t ≠ [])
    (parts.foldl
      (fun (st : Vault × String) part =>
        let acc := if st.2 != "" then st.2 ++ "/" ++ (⟨part⟩ : String) else (⟨part⟩ : String)
        let accNorm := normalizePath acc
        let v' := if vexists st.1 accNorm then st.1 else ⟨accNorm :: st.1.entries⟩
        (v', acc))
      (v, "")).1

/-- Move primitive `fileManager.renameFile`: the document leaves its old path and appears
at the destination. -/
def renameFile (v : Vault) (src dst : String) : Vault :=
  ⟨dst :: v.entries.filter (fun e => e ≠ src)⟩

/-- The probe of `resolveCollision`'s `while` loop (src/main.ts line 223). -/
def collisionCandidate (base ext : String) (i : Nat) : String :=
  normalizePath (base ++ " (" ++ toString i ++ ")" ++ ext)

/-- The base/extension split of `resolveCollision` (src/main.ts lines
217-220): `dot = targetPath.lastIndexOf(".")`, an extension exists when a
dot exists and the path does not end in "/". -/
def collisionSplit (t : String) : String × String :=
  match splitLast '.' t.data with
  | none => (t, "")
  | some (b, e) => if strEndsWith t "/" then (t, "") else (⟨b⟩, ⟨'.' :: e⟩)

/-- The `while (exists) i++` loop of `resolveCollision`, with fuel. -/
def resolveCollisionLoop (ex : String → Bool) (base ext : String) :
    Nat → Nat → Option String
  | _, 0 => none
  | i, fuel + 1 =>
    if ex (collisionCandidate base ext i) then
      resolveCollisionLoop ex base ext (i + 1) fuel
    else some (collisionCandidate base ext i)

/-- Source `resolveCollision` (src/main.ts lines 212-225), abstracted over the
store's existence predicate. -/
def resolveCollision (ex : String → Bool) (targetPath : String) (fuel : Nat) :
    Option String :=
  let t := normalizePath targetPath
  if !(ex t) then some t
  else
    let be := collisionSplit t
    resolveCollisionLoop ex be.1 be.2 1 fuel

/-- The observable outcome of one `processFile` call. -/
inductive TransitionOutcome where
  | noAction
  | wouldArchive (full : String)
  | wouldUnarchive (full : String)
  | archived (dest : String)
  | unarchived (dest : String)
deriving DecidableEq

/-- Source `processFile` (src/main.ts lines 227-265).  Returns the outcome, the
updated store, and the file's updated path (`renameFile` updates
`TFile.path` in place); `none` when the collision loop never ends (the
errored call escaping `processFile`). -/
def processFile (st : AutoArchiverSettings) (v : Vault) (f : TFileM) (fuel : Nat) :
    Option (TransitionOutcome × Vault × String) :=
  if f.extension != "md" then some (.noAction, v, f.path)
  else if isExcluded st f.path then some (.noAction, v, f.path)
  else
    let wantArchive := shouldArchive st f.cache
    let inArchive := isInArchive st f.path
    if wantArchive && !inArchive then
      let t := buildArchiveTarget st.archiveRoot f.path
      if st.dryRun then some (.wouldArchive t.full, v, f.path)
      else
        let v1 := ensureFolderExists v t.dir
        match resolveCollision (vexists v1) t.full fuel with
        | none => none
        | some dest => some (.archived dest, renameFile v1 f.path dest, dest)
    else if !wantArchive && inArchive && st.unarchiveOnMissingAll then
      match buildUnarchiveTarget st.archiveRoot f.path with
      | none => some (.noAction, v, f.path)
      | some t =>
        if st.dryRun then some (.wouldUnarchive t.full, v, f.path)
        else
          let v1 := if t.dir != "" then ensureFolderExists v t.dir else v
          match resolveCollision (vexists v1) t.full fuel with
          | none => none
          | some dest => some (.unarchived dest, renameFile v1 f.path dest, dest)
    else some (.noAction, v, f.path)

/-- The `for` loop of `scanAll` (src/main.ts lines 271-278), carrying the
two counters.  A `processFile` call that fails makes the whole loop fail:
the source has no try/catch around the per-document call, so an exception
propagates out of the loop. -/
def scanAllLoop (st : AutoArchiverSettings) (fuel : Nat) :
    List TFileM → Vault → Nat → Nat → Option (Nat × Nat × Vault)
  | [], v, a, u => some (a, u, v)
  | f :: rest, v, a, u =>
    let wasIn := isInArchive st f.path
    match processFile st v f fuel with
    | none => none
    | some (_, v', p') =>
      let nowIn := isInArchive st p'
      scanAllLoop st fuel rest v'
        (if !wasIn && nowIn then a + 1 else a)
        (if wasIn && !nowIn then u + 1 else u)

/-- Source `scanAll` (src/main.ts lines 267-284), reduced to its counting loop. -/
def scanAll (st : AutoArchiverSettings) (v : Vault) (files : List TFileM)
    (fuel : Nat) : Option (Nat × Nat × Vault) :=
  scanAllLoop st fuel files v 0 0

/-- A proper path segment: nonempty and separator-free. -/
def properSeg (t : String) : Prop := t ≠ "" ∧ '/' ∉ t.data

instance (t : String) : Decidable (properSeg t) := by unfold properSeg; infer_instance

/-- Join segments with `/` into a path string. -/
def mkPath (segs : List String) : String :=
  ⟨List.intercalate ['/'] (segs.map String.data)⟩

/-- The segments a path decomposes into. -/
def pathSegs (s : String) : List String :=
  ((s.data.splitOn '/').filter (fun t => t ≠ [])).map (fun l => (⟨l⟩ : String))

/-- Follows the claim's words for C2's base/extension split: the split
happens at the last separator-free dot — a dot occurring in a directory
component is NOT an extension separator, and a path ending in a separator
has no extension.  (Definition written from the claim, for comparison with
the source-derived `collisionSplit`.) -/
def collisionSplitSpec (t : String) : String × String :=
  if strEndsWith t "/" then (t, "")
  else
    match splitLast '.' t.data with
    | none => (t, "")
    | some (b, e) => if '/' ∈ e then (t, "") else (⟨b⟩, ⟨'.' :: e⟩)

/-- The claim's collision resolver: same probing loop, claim's split. -/
def resolveCollisionSpec (ex : String → Bool) (targetPath : String) (fuel : Nat) :
    Option String :=
  let t := normalizePath targetPath
  if !(ex t) then some t
  else
    let be := collisionSplitSpec t
    resolveCollisionLoop ex be.1 be.2 1 fuel

/-- Follows the claim's words for C1: failures on individual documents are
caught at the per-document boundary and do not abort the remaining scan;
the aggregate counts still reflect every document that succeeded.
(Definition written from the claim, for comparison with the source-derived
`scanAllLoop`.) -/
def scanAllSpecLoop (st : AutoArchiverSettings) (fuel : Nat) :
    List TFileM → Vault → Nat → Nat → Nat × Nat × Vault
  | [], v, a, u => (a, u, v)
  | f :: rest, v, a, u =>
    let wasIn := isInArchive st f.path
    match processFile st v f fuel with
    | none => scanAllSpecLoop st fuel rest v a u
    | some (_, v', p') =>
      let nowIn := isInArchive st p'
      scanAllSpecLoop st fuel rest v'
        (if !wasIn && nowIn then a + 1 else a)
        (if wasIn && !nowIn then u + 1 else u)

theorem data_eq_nil_iff (s : String) : s.data = [] ↔ s = "" := by
  constructor
  · intro h; exact String.ext h
  · rintro rfl; rfl

theorem mkPath_nil : mkPath [] = "" := rfl

theorem mkPath_one (t : String) : mkPath [t] = t := by
  apply String.ext
  simp [mkPath, List.intercalate]

theorem intercalate_cons_of_ne_nil (sep a : List Char) (l : List (List Char))
    (h : l ≠ []) :
    List.intercalate sep (a :: l) = a ++ sep ++ List.intercalate sep l := by
  cases l with
  | nil => exact absurd rfl h
  | cons b rest =>
    simp [List.intercalate, List.intersperse_cons_cons, List.append_assoc]

theorem mkPath_cons_of_ne_nil (t : String) (l : List String) (h : l ≠ []) :
    mkPath (t :: l) = t ++ "/" ++ mkPath l := by
  apply String.ext
  show List.intercalate ['/'] (t.data :: l.map String.data) = _
  rw [intercalate_cons_of_ne_nil _ _ _ (by simpa using h)]
  rfl

theorem mkPath_append (l₁ l₂ : List String) (h₁ : l₁ ≠ []) (h₂ : l₂ ≠ []) :
    mkPath (l₁ ++ l₂) = mkPath l₁ ++ "/" ++ mkPath l₂ := by
  induction l₁ with
  | nil => exact absurd rfl h₁
  | cons t rest ih =>
    cases rest with
    | nil =>
      rw [List.singleton_append, mkPath_cons_of_ne_nil _ _ h₂, mkPath_one]
    | cons r rs =>
      rw [List.cons_append, mkPath_cons_of_ne_nil _ _ (by simp),
        mkPath_cons_of_ne_nil _ _ (by simp), ih (by simp)]
      apply String.ext
      simp [List.append_assoc]

theorem data_append (a b : String) : (a ++ b).data = a.data ++ b.data := rfl

theorem mkPath_data_ne_nil (t : String) (l : List String) (ht : t ≠ "") :
    (mkPath (t :: l)).data ≠ [] := by
  cases l with
  | nil =>
    rw [mkPath_one]
    simpa [data_eq_nil_iff] using ht
  | cons r rs =>
    rw [mkPath_cons_of_ne_nil _ _ (by simp)]
    intro h
    rw [data_append, data_append] at h
    rcases List.append_eq_nil.mp h with ⟨h1, h2⟩
    rcases List.append_eq_nil.mp h1 with ⟨h3, h4⟩
    exact List.cons_ne_nil _ _ h4

theorem mkPath_getLast_ne_slash (l : List String) (hl : ∀ t ∈ l, properSeg t) :
    (mkPath l).data.getLast? ≠ some '/' := by
  induction l with
  | nil => intro h; exact Option.noConfusion h
  | cons t rest ih =>
    cases rest with
    | nil =>
      rw [mkPath_one]
      intro h
      exact (hl t (by simp)).2 (List.mem_of_getLast?_eq_some h)
    | cons r rs =>
      rw [mkPath_cons_of_ne_nil _ _ (by simp)]
      show ((t ++ "/").data ++ (mkPath (r :: rs)).data).getLast? ≠ some '/'
      rw [List.getLast?_append]
      have hne : (mkPath (r :: rs)).data ≠ [] :=
        mkPath_data_ne_nil r rs (hl r (by simp)).1
      have hsome : (mkPath (r :: rs)).data.getLast?.isSome := by
        rw [Option.isSome_iff_ne_none]
        simpa [List.getLast?_eq_none_iff] using hne
      obtain ⟨a, ha⟩ := Option.isSome_iff_exists.mp hsome
      rw [ha]
      have h2 := ih (fun s hs => hl s (by simp [hs]))
      rw [ha] at h2
      simpa [Option.or] using h2

theorem stripTrailingSlashes_eq_self {s : String}
    (h : s.data.getLast? ≠ some '/') : stripTrailingSlashes s = s := by
  apply String.ext
  show (s.data.reverse.dropWhile (fun c => c = '/')).reverse = s.data
  cases hr : s.data.reverse with
  | nil =>
    have : s.data = [] := by simpa using congrArg List.reverse hr
    simp [List.dropWhile_nil, this]
  | cons a as =>
    have hdata : s.data = as.reverse ++ [a] := by
      have := congrArg List.reverse hr
      simpa using this
    have hlast : s.data.getLast? = some a := by
      rw [hdata]; exact List.getLast?_concat _
    have hane : ¬(a = '/') := fun hc => h (by rw [hlast, hc])
    rw [List.dropWhile_cons, if_neg (by simpa using hane), ← hr,
      List.reverse_reverse]

theorem stripTrailingSlashes_mkPath (l : List String)
    (hl : ∀ t ∈ l, properSeg t) : stripTrailingSlashes (mkPath l) = mkPath l :=
  stripTrailingSlashes_eq_self (mkPath_getLast_ne_slash l hl)

theorem splitOnP_forall_not (p : Char → Bool) (xs : List Char) :
    ∀ l ∈ xs.splitOnP p, ∀ a ∈ l, p a = false := by
  induction xs with
  | nil =>
    intro l hl
    rw [List.splitOnP_nil] at hl
    simp at hl
    simp [hl]
  | cons x xs ih =>
    intro l hl
    rw [List.splitOnP_cons] at hl
    by_cases hx : p x
    · rw [if_pos hx] at hl
      rcases List.mem_cons.mp hl with h | h
      · simp [h]
      · exact ih l h
    · rw [if_neg hx] at hl
      cases hs : xs.splitOnP p with
      | nil => exact absurd hs (List.splitOnP_ne_nil p xs)
      | cons hd tl =>
        rw [hs] at hl
        simp only [List.modifyHead] at hl
        rcases List.mem_cons.mp hl with h | h
        · subst h
          intro a ha
          rcases List.mem_cons.mp ha with rfl | ha'
          · simpa using hx
          · exact ih hd (by rw [hs]; exact List.mem_cons_self _ _) a ha'
        · exact ih l (by rw [hs]; exact List.mem_cons_of_mem _ h)

theorem splitOn_sep_not_mem (xs : List Char) :
    ∀ l ∈ xs.splitOn '/', '/' ∉ l := by
  intro l hl hmem
  have := splitOnP_forall_not (fun c => c == '/') xs l hl '/' hmem
  simp at this

theorem pathSegs_proper (s : String) : ∀ t ∈ pathSegs s, properSeg t := by
  intro t ht
  unfold pathSegs at ht
  rcases List.mem_map.mp ht with ⟨l, hl, rfl⟩
  have hl' := List.mem_filter.mp hl
  constructor
  · have hne : l ≠ [] := by simpa using hl'.2
    exact fun hc => hne (congrArg String.data hc)
  · exact splitOn_sep_not_mem s.data l hl'.1

theorem normalizePath_eq_mkPath (s : String) : normalizePath s = mkPath (pathSegs s) := by
  apply String.ext
  show List.intercalate ['/'] _ = List.intercalate ['/'] _
  unfold pathSegs
  rw [List.map_map]
  congr 1
  rw [show (String.data ∘ fun l => (⟨l⟩ : String)) = id from rfl, List.map_id]

theorem normalizePath_mkPath (l : List String) (hl : ∀ t ∈ l, properSeg t) :
    normalizePath (mkPath l) = mkPath l := by
  cases l with
  | nil => rfl
  | cons t rest =>
    apply String.ext
    show List.intercalate ['/'] _ = _
    have hx : ∀ d ∈ (t :: rest).map String.data, '/' ∉ d := by
      intro d hd
      rcases List.mem_map.mp hd with ⟨u, hu, rfl⟩
      exact (hl u hu).2
    have hmk : (mkPath (t :: rest)).data = List.intercalate ['/'] ((t :: rest).map String.data) := rfl
    rw [hmk, List.splitOn_intercalate _ '/' hx (by simp)]
    rw [List.filter_eq_self.mpr ?_]
    intro d hd
    rcases List.mem_map.mp hd with ⟨u, hu, rfl⟩
    have : u ≠ "" := (hl u hu).1
    simpa [data_eq_nil_iff] using this

theorem normalizePath_idem (s : String) :
    normalizePath (normalizePath s) = normalizePath s := by
  rw [normalizePath_eq_mkPath s]
  exact normalizePath_mkPath _ (pathSegs_proper s)

theorem stripTrailingSlashes_normalizePath (s : String) :
    stripTrailingSlashes (normalizePath s) = normalizePath s := by
  rw [normalizePath_eq_mkPath s]
  exact stripTrailingSlashes_mkPath _ (pathSegs_proper s)

theorem mk_data (s : String) : (⟨s.data⟩ : String) = s := rfl

theorem splitLast_eq_none {c : Char} {l : List Char} (h : c ∉ l) :
    splitLast c l = none := by
  induction l with
  | nil => rfl
  | cons a as ih =>
    have ha : ¬(a = c) := fun hc => h (hc ▸ List.mem_cons_self a as)
    have has : c ∉ as := fun hc => h (List.mem_cons_of_mem _ hc)
    simp only [splitLast, ih has, if_neg ha]

theorem splitLast_append_cons {c : Char} (d n : List Char) (h : c ∉ n) :
    splitLast c (d ++ c :: n) = some (d, n) := by
  induction d with
  | nil =>
    simp only [List.nil_append, splitLast, splitLast_eq_none h]
    simp
  | cons x xs ih =>
    simp only [List.cons_append, splitLast, List.append_eq, ih]

theorem drop_length_succ_append (xs ys : List Char) (c : Char) :
    (xs ++ c :: ys).drop (xs.length + 1) = ys := by
  have h : xs ++ c :: ys = (xs ++ [c]) ++ ys := by simp
  rw [h, show xs.length + 1 = (xs ++ [c]).length by simp, List.drop_left]

theorem properSeg_append_all (D : List String) (F : String)
    (hD : ∀ t ∈ D, properSeg t) (hF : properSeg F) :
    ∀ t ∈ D ++ [F], properSeg t := by
  intro t ht
  rcases List.mem_append.mp ht with h | h
  · exact hD t h
  · simp at h; subst h; exact hF

theorem properSeg_append (A B : List String)
    (hA : ∀ t ∈ A, properSeg t) (hB : ∀ t ∈ B, properSeg t) :
    ∀ t ∈ A ++ B, properSeg t := by
  intro t ht
  rcases List.mem_append.mp ht with h | h
  · exact hA t h
  · exact hB t h

theorem normalizeRoot_mkPath (R : List String) (hR : ∀ t ∈ R, properSeg t) :
    stripTrailingSlashes (normalizePath (mkPath R)) = mkPath R := by
  rw [normalizePath_mkPath R hR]
  exact stripTrailingSlashes_mkPath R hR

/-- Structure of `buildArchiveTarget` on a well-formed path `D/F` and
well-formed nonempty root `R`: destination dir `R/D`, full path `R/D/F`. -/
theorem buildArchiveTarget_mkPath (R D : List String) (F : String)
    (hR : ∀ t ∈ R, properSeg t) (hRne : R ≠ [])
    (hD : ∀ t ∈ D, properSeg t) (hF : properSeg F) :
    buildArchiveTarget (mkPath R) (mkPath (D ++ [F])) =
      ⟨mkPath (R ++ D), mkPath (R ++ D ++ [F])⟩ := by
  have hDF := properSeg_append_all D F hD hF
  have hRDF : ∀ t ∈ R ++ D ++ [F], properSeg t := by
    rw [List.append_assoc]
    exact properSeg_append R (D ++ [F]) hR hDF
  simp only [buildArchiveTarget, normalizeRoot_mkPath R hR,
    normalizePath_mkPath _ hDF]
  cases D with
  | nil =>
    rw [List.nil_append, mkPath_one, splitLast_eq_none hF.2]
    simp only [bne_self_eq_false, Bool.false_eq_true, if_false, List.append_nil]
    have hdir : normalizePath (mkPath R) = mkPath R := normalizePath_mkPath R hR
    have hfull : normalizePath (mkPath R ++ "/" ++ F) = mkPath (R ++ [F]) := by
      rw [show mkPath R ++ "/" ++ F = mkPath (R ++ [F]) by
        rw [mkPath_append R [F] hRne (by simp), mkPath_one]]
      exact normalizePath_mkPath _ (by simpa using hRDF)
    rw [hdir, hfull]
  | cons d ds =>
    have hDne : (d :: ds) ≠ ([] : List String) := by simp
    have hsplit : splitLast '/' (mkPath ((d :: ds) ++ [F])).data =
        some ((mkPath (d :: ds)).data, F.data) := by
      rw [mkPath_append (d :: ds) [F] hDne (by simp), mkPath_one]
      rw [show ((mkPath (d :: ds) ++ "/" ++ F).data =
        (mkPath (d :: ds)).data ++ '/' :: F.data) by simp [data_append]]
      exact splitLast_append_cons _ _ hF.2
    rw [hsplit]
    have hcd : (mkPath (d :: ds)) ≠ "" := by
      intro hc
      exact mkPath_data_ne_nil d ds (hD d (by simp)).1 (congrArg String.data hc)
    simp only [mk_data]
    rw [if_pos (by simpa using hcd)]
    have hdir : normalizePath (mkPath R ++ "/" ++ mkPath (d :: ds)) =
        mkPath (R ++ (d :: ds)) := by
      rw [show mkPath R ++ "/" ++ mkPath (d :: ds) = mkPath (R ++ (d :: ds)) from
        (mkPath_append R (d :: ds) hRne hDne).symm]
      exact normalizePath_mkPath _ (properSeg_append R (d :: ds) hR hD)
    have hfull : normalizePath (mkPath R ++ "/" ++ mkPath (d :: ds) ++ "/" ++ F) =
        mkPath (R ++ (d :: ds) ++ [F]) := by
      rw [show mkPath R ++ "/" ++ mkPath (d :: ds) ++ "/" ++ F =
          mkPath (R ++ (d :: ds) ++ [F]) by
        rw [mkPath_append (R ++ (d :: ds)) [F]
          (by simp) (by simp), mkPath_one,
          mkPath_append R (d :: ds) hRne hDne]]
      exact normalizePath_mkPath _ hRDF
    rw [hdir, hfull]

theorem matchesRoot_iff (r p : String) :
    matchesRoot r p = true ↔
      normalizePath p = stripTrailingSlashes (normalizePath r) ∨
      ∃ rest, (normalizePath p).data =
        (stripTrailingSlashes (normalizePath r)).data ++ '/' :: rest := by
  unfold matchesRoot strStartsWith
  simp only [Bool.or_eq_true, beq_iff_eq]
  apply or_congr Iff.rfl
  rw [List.isPrefixOf_iff_prefix]
  constructor
  · rintro ⟨t, ht⟩
    exact ⟨t, by rw [← ht, data_append]; simp⟩
  · rintro ⟨rest, hrest⟩
    refine ⟨rest, ?_⟩
    rw [data_append, hrest]
    simp

theorem matchesRoot_of_append (R S : List String)
    (hR : ∀ t ∈ R, properSeg t) (hS : ∀ t ∈ S, properSeg t)
    (hRne : R ≠ []) (hSne : S ≠ []) :
    matchesRoot (mkPath R) (mkPath (R ++ S)) = true := by
  rw [matchesRoot_iff]
  right
  rw [normalizePath_mkPath _ (properSeg_append R S hR hS), normalizeRoot_mkPath R hR,
    mkPath_append R S hRne hSne]
  exact ⟨(mkPath S).data, by simp [data_append]⟩

/-- Structure of `buildUnarchiveTarget` at a well-formed path `R/D/F` under
the well-formed nonempty root `R`: the root prefix is stripped. -/
theorem buildUnarchiveTarget_mkPath (R D : List String) (F : String)
    (hR : ∀ t ∈ R, properSeg t) (hRne : R ≠ [])
    (hD : ∀ t ∈ D, properSeg t) (hF : properSeg F) :
    buildUnarchiveTarget (mkPath R) (mkPath (R ++ D ++ [F])) =
      some ⟨if D = [] then "" else mkPath D, mkPath (D ++ [F])⟩ := by
  have hDF := properSeg_append_all D F hD hF
  have hRDF : ∀ t ∈ R ++ D ++ [F], properSeg t := by
    rw [List.append_assoc]
    exact properSeg_append R (D ++ [F]) hR hDF
  have hDFne : D ++ [F] ≠ [] := by simp
  have hfp : normalizePath (mkPath (R ++ D ++ [F])) = mkPath (R ++ D ++ [F]) :=
    normalizePath_mkPath _ hRDF
  have hdata : (mkPath (R ++ D ++ [F])).data =
      (mkPath R).data ++ '/' :: (mkPath (D ++ [F])).data := by
    rw [List.append_assoc, mkPath_append R (D ++ [F]) hRne hDFne]
    simp [data_append]
  have hmatch : matchesRoot (mkPath R) (mkPath (R ++ D ++ [F])) = true := by
    rw [List.append_assoc]
    exact matchesRoot_of_append R (D ++ [F]) hR hDF hRne hDFne
  have hne : mkPath (R ++ D ++ [F]) ≠ mkPath R := by
    intro hc
    have h2 := congrArg String.data hc
    rw [hdata] at h2
    have h3 := congrArg List.length h2
    simp at h3
  simp only [buildUnarchiveTarget, normalizeRoot_mkPath R hR, hfp, hmatch,
    Bool.not_true, beq_eq_false_iff_ne.mpr hne]
  simp only [Bool.false_eq_true, if_false]
  have hdrop : (mkPath (R ++ D ++ [F])).data.drop ((mkPath R).data.length + 1) =
      (mkPath (D ++ [F])).data := by
    rw [hdata]
    exact drop_length_succ_append _ _ _
  rw [hdrop]
  cases D with
  | nil =>
    have hnormF : normalizePath F = F := by
      rw [← mkPath_one F]
      exact normalizePath_mkPath [F] (by simpa using hF)
    simp only [List.nil_append, mkPath_one, splitLast_eq_none hF.2,
      bne_self_eq_false, Bool.false_eq_true, if_false, mk_data, hnormF]
    simp
  | cons d ds =>
    have hDne : (d :: ds) ≠ ([] : List String) := by simp
    have hsplit : splitLast '/' (mkPath ((d :: ds) ++ [F])).data =
        some ((mkPath (d :: ds)).data, F.data) := by
      rw [mkPath_append (d :: ds) [F] hDne (by simp), mkPath_one]
      rw [show ((mkPath (d :: ds) ++ "/" ++ F).data =
        (mkPath (d :: ds)).data ++ '/' :: F.data) by simp [data_append]]
      exact splitLast_append_cons _ _ hF.2
    rw [hsplit]
    have hcd : (mkPath (d :: ds)) ≠ "" := by
      intro hc
      exact mkPath_data_ne_nil d ds (hD d (by simp)).1 (congrArg String.data hc)
    have hnormD : normalizePath (mkPath (d :: ds)) = mkPath (d :: ds) :=
      normalizePath_mkPath _ hD
    have hfull : normalizePath (mkPath (d :: ds) ++ "/" ++ F) =
        mkPath ((d :: ds) ++ [F]) := by
      rw [show mkPath (d :: ds) ++ "/" ++ F = mkPath ((d :: ds) ++ [F]) by
        rw [mkPath_append (d :: ds) [F] hDne (by simp), mkPath_one]]
      exact normalizePath_mkPath _ hDF
    simp only [mk_data]
    rw [if_pos (by simpa using hcd), hnormD, if_pos (by simpa using hcd), hfull,
      if_neg (by simp : ¬(d :: ds = ([] : List String)))]

/-- C3: round-trip of the target resolvers.  For every well-formed path with
relative directory `D` (possibly empty) and filename `F`, and every
well-formed nonempty archive root `R`, unarchiving the archive target gives
back the original path. -/
theorem archiveUnarchive_roundTrip (D : List String) (F : String) (R : List String)
    (hD : ∀ t ∈ D, properSeg t) (hF : properSeg F)
    (hR : ∀ t ∈ R, properSeg t) (hRne : R ≠ []) :
    ∃ t : Target,
      buildUnarchiveTarget (mkPath R)
        (buildArchiveTarget (mkPath R) (mkPath (D ++ [F]))).full = some t ∧
      t.full = mkPath (D ++ [F]) := by
  rw [buildArchiveTarget_mkPath R D F hR hRne hD hF]
  exact ⟨_, buildUnarchiveTarget_mkPath R D F hR hRne hD hF, rfl⟩

theorem resolveCollisionLoop_eq (ex : String → Bool) (base ext : String) :
    ∀ fuel i k, i ≤ k → k - i < fuel →
      (∀ j, i ≤ j → j < k → ex (collisionCandidate base ext j) = true) →
      ex (collisionCandidate base ext k) = false →
      resolveCollisionLoop ex base ext i fuel =
        some (collisionCandidate base ext k) := by
  intro fuel
  induction fuel with
  | zero => intro i k hik hlt hbusy hfree; omega
  | succ fuel ih =>
    intro i k hik hlt hbusy hfree
    by_cases hik' : i = k
    · subst hik'
      simp only [resolveCollisionLoop, hfree, Bool.false_eq_true, if_false]
    · have hlt2 : i < k := lt_of_le_of_ne hik hik'
      have hbusy_i : ex (collisionCandidate base ext i) = true :=
        hbusy i le_rfl hlt2
      simp only [resolveCollisionLoop, hbusy_i, if_true]
      exact ih (i + 1) k hlt2 (by omega) (fun j hj hjk => hbusy j (by omega) hjk) hfree

/-- C2 (amended): `resolveCollision` returns the normalized desired path
unchanged when it does not exist; otherwise it splits the normalized path at
its LAST dot (wherever that dot occurs, even inside a directory component)
and probes `base + " (i)" + ext` for `i = 1, 2, ...`, returning the first
candidate for which the existence predicate is false. -/
theorem resolveCollision_correct (ex : String → Bool) (p : String) :
    (ex (normalizePath p) = false →
      ∀ fuel, resolveCollision ex p fuel = some (normalizePath p)) ∧
    (∀ k fuel, ex (normalizePath p) = true → 1 ≤ k → k < fuel →
      (∀ j, 1 ≤ j → j < k →
        ex (collisionCandidate (collisionSplit (normalizePath p)).1
          (collisionSplit (normalizePath p)).2 j) = true) →
      ex (collisionCandidate (collisionSplit (normalizePath p)).1
        (collisionSplit (normalizePath p)).2 k) = false →
      resolveCollision ex p fuel =
        some (collisionCandidate (collisionSplit (normalizePath p)).1
          (collisionSplit (normalizePath p)).2 k)) := by
  constructor
  · intro hfree fuel
    simp only [resolveCollision, hfree, Bool.not_false, if_true]
  · intro k fuel hex hk hfuel hbusy hfree
    simp only [resolveCollision, hex, Bool.not_true, Bool.false_eq_true, if_false]
    exact resolveCollisionLoop_eq ex _ _ fuel 1 k hk (by omega)
      (fun j hj hjk => hbusy j hj hjk) hfree

/-- Spec's collision example: with `"Archive/Task/TASK-1.md"` and
`"Archive/Task/TASK-1 (1).md"` both existing, the resolver returns
`"Archive/Task/TASK-1 (2).md"`. -/
theorem resolveCollision_correct_witness :
    resolveCollision
      (fun p => p == "Archive/Task/TASK-1.md" || p == "Archive/Task/TASK-1 (1).md")
      "Archive/Task/TASK-1.md" 5 = some "Archive/Task/TASK-1 (2).md" := by
  have h := (resolveCollision_correct
    (fun p => p == "Archive/Task/TASK-1.md" || p == "Archive/Task/TASK-1 (1).md")
    "Archive/Task/TASK-1.md").2 2 5 (by decide) (by decide) (by decide)
    (by intro j hj hjk; interval_cases j; decide) (by decide)
  rw [h]
  rfl

/-- C2 counterexample: for the desired path `"dir.v2/file"` (whose only dot
lies in a directory component) the code suffixes before the dot in the
DIRECTORY name, probing `"dir (1).v2/file"`, while the claim's split
(no separator-free dot, hence no extension) would probe
`"dir.v2/file (1)"`. -/
theorem resolveCollision_counterexample :
    resolveCollision (fun p => p == "dir.v2/file") "dir.v2/file" 5 =
        some "dir (1).v2/file" ∧
    resolveCollisionSpec (fun p => p == "dir.v2/file") "dir.v2/file" 5 =
        some "dir.v2/file (1)" ∧
    ("dir (1).v2/file" : String) ≠ "dir.v2/file (1)" :=
  ⟨rfl, rfl, by decide⟩

theorem matchesRoot_normalize (r p : String) :
    matchesRoot r (normalizePath p) = matchesRoot r p := by
  unfold matchesRoot
  rw [normalizePath_idem]

theorem matchesRoot_self_of_eq (r p : String)
    (h : normalizePath p = stripTrailingSlashes (normalizePath r)) :
    matchesRoot r p = true := by
  unfold matchesRoot
  rw [h]
  simp

/-- C7: `buildUnarchiveTarget` yields `null` — an ordinary value, not a
failure — whenever the path is not under the archive root or equals the
root exactly; in particular the root itself is never a valid unarchive
source, and `processFile` leaves a document sitting literally at the root
alone. -/
theorem buildUnarchiveTarget_null (st : AutoArchiverSettings) :
    (∀ path, isInArchive st path = false ∨
        normalizePath path = stripTrailingSlashes (normalizePath st.archiveRoot) →
      buildUnarchiveTarget st.archiveRoot path = none) ∧
    buildUnarchiveTarget st.archiveRoot st.archiveRoot = none ∧
    (∀ v f fuel,
      normalizePath f.path = stripTrailingSlashes (normalizePath st.archiveRoot) →
      processFile st v f fuel = some (.noAction, v, f.path)) := by
  have hmain : ∀ path, isInArchive st path = false ∨
      normalizePath path = stripTrailingSlashes (normalizePath st.archiveRoot) →
      buildUnarchiveTarget st.archiveRoot path = none := by
    intro path h
    rcases h with h | h
    · unfold isInArchive at h
      simp only [buildUnarchiveTarget, matchesRoot_normalize, h]
      rfl
    · by_cases hm : matchesRoot st.archiveRoot path = true
      · simp only [buildUnarchiveTarget, matchesRoot_normalize, hm, Bool.not_true,
          Bool.false_eq_true, if_false, h]
        simp
      · have hm' : matchesRoot st.archiveRoot path = false := Bool.eq_false_iff.mpr hm
        simp only [buildUnarchiveTarget, matchesRoot_normalize, hm', Bool.not_false,
          if_true]
  refine ⟨hmain, ?_, ?_⟩
  · exact hmain st.archiveRoot
      (Or.inr (stripTrailingSlashes_normalizePath st.archiveRoot).symm)
  · intro v f fuel h
    have hin : isInArchive st f.path = true := matchesRoot_self_of_eq _ _ h
    have hbu : buildUnarchiveTarget st.archiveRoot f.path = none :=
      hmain f.path (Or.inr h)
    by_cases hext : (f.extension != "md") = true
    · simp only [processFile, hext, if_true]
    · by_cases hexc : isExcluded st f.path = true
      · simp only [processFile, hext, Bool.false_eq_true, if_false, hexc, if_true]
      · have hexc' : isExcluded st f.path = false := Bool.eq_false_iff.mpr hexc
        simp [processFile, hext, hexc', hin, hbu]

/-- C7 witness at concrete inputs. -/
theorem buildUnarchiveTarget_null_witness :
    buildUnarchiveTarget "Archive" "Notes/x.md" = none ∧
    buildUnarchiveTarget "Archive" "Archive" = none ∧
    processFile DEFAULT_SETTINGS ⟨["Archive"]⟩ ⟨"Archive", "md", none⟩ 3 =
      some (.noAction, ⟨["Archive"]⟩, "Archive") := by
  refine ⟨?_, ?_, ?_⟩
  · exact (buildUnarchiveTarget_null DEFAULT_SETTINGS).1 "Notes/x.md"
      (Or.inl (by decide))
  · exact (buildUnarchiveTarget_null DEFAULT_SETTINGS).2.1
  · exact (buildUnarchiveTarget_null DEFAULT_SETTINGS).2.2 ⟨["Archive"]⟩
      ⟨"Archive", "md", none⟩ 3 (by decide)

/-- C10: containment against the archive root and every excluded root is
segment-boundary aware, not raw string-prefix matching: a path matches a
root exactly when (after normalization and trailing-separator stripping of
the root) it equals the root or extends it past a `'/'`.  Hence
`"Templates2/note.md"` is not excluded by the root `"Templates"`, and
`"Archives/x.md"` is not inside the archive root `"Archive"`. -/
theorem containment_segment_boundary :
    (∀ st p, isInArchive st p = true ↔
        normalizePath p = stripTrailingSlashes (normalizePath st.archiveRoot) ∨
        ∃ rest, (normalizePath p).data =
          (stripTrailingSlashes (normalizePath st.archiveRoot)).data ++ '/' :: rest) ∧
    (∀ st p, isExcluded st p = true ↔
        ∃ r ∈ st.excludedRoots,
          normalizePath p = stripTrailingSlashes (normalizePath r) ∨
          ∃ rest, (normalizePath p).data =
            (stripTrailingSlashes (normalizePath r)).data ++ '/' :: rest) ∧
    isExcluded { DEFAULT_SETTINGS with excludedRoots := ["Templates"] }
      "Templates2/note.md" = false ∧
    isInArchive DEFAULT_SETTINGS "Archives/x.md" = false := by
  refine ⟨?_, ?_, by decide, by decide⟩
  · intro st p
    exact matchesRoot_iff st.archiveRoot p
  · intro st p
    unfold isExcluded
    by_cases hemp : st.excludedRoots.isEmpty
    · rw [if_pos hemp]
      have : st.excludedRoots = [] := List.isEmpty_iff.mp hemp
      simp [this]
    · rw [if_neg hemp, List.any_eq_true]
      exact exists_congr fun r => and_congr_right fun hr => matchesRoot_iff r p

/-- C6: `isTruthy` is true exactly for boolean true, the number 1, and
strings whose normalized (trimmed, case-folded) form is `"true"`, `"1"`, or
one of the configured extra-truthy strings (normalized the same way); every
other value is false.  The truthy matrix of the spec follows. -/
theorem isTruthy_characterization :
    (∀ st v, isTruthy st v = true ↔
        v = .bool true ∨ v = .num 1 ∨
        ∃ s, v = .str s ∧
          (norm s = "true" ∨ norm s = "1" ∨
            norm s ∈ st.extraTruthyValues.map norm)) ∧
    (∀ st, isTruthy st (.bool true) = true ∧ isTruthy st (.num 1) = true ∧
      isTruthy st (.num 2) = false ∧ isTruthy st (.str "TRUE") = true ∧
      (isTruthy st (.str "yes") = true ↔ "yes" ∈ st.extraTruthyValues.map norm) ∧
      ("no" ∉ st.extraTruthyValues.map norm → isTruthy st (.str "no") = false)) := by
  have hchar : ∀ st v, isTruthy st v = true ↔
      v = .bool true ∨ v = .num 1 ∨
      ∃ s, v = .str s ∧
        (norm s = "true" ∨ norm s = "1" ∨
          norm s ∈ st.extraTruthyValues.map norm) := by
    intro st v
    cases v with
    | bool b => cases b <;> simp [isTruthy]
    | num n => simp [isTruthy]
    | str s =>
      simp only [isTruthy]
      by_cases h1 : norm s = "true"
      · simp [h1]
      · by_cases h2 : norm s = "1"
        · simp [h2]
        · simp [h1, h2, List.elem_iff]
    | arr xs => simp [isTruthy]
    | object => simp [isTruthy]
    | null => simp [isTruthy]
  refine ⟨hchar, fun st => ⟨by simp [isTruthy], by simp [isTruthy],
    by simp [isTruthy], ?_, ?_, ?_⟩⟩
  · have h : norm "TRUE" = "true" := rfl
    simp [isTruthy, h]
  · have h : norm "yes" = "yes" := rfl
    simp [isTruthy, h, List.elem_iff]
  · intro hno
    have h : norm "no" = "no" := rfl
    simp [isTruthy, h, List.elem_iff, hno]

/-- C6 witness: the matrix at the default configuration, with the membership
hypotheses discharged concretely. -/
theorem isTruthy_characterization_witness :
    isTruthy DEFAULT_SETTINGS (.str "no") = false ∧
    isTruthy DEFAULT_SETTINGS (.str "yes") = true := by
  constructor
  · exact (isTruthy_characterization.2 DEFAULT_SETTINGS).2.2.2.2.2 (by decide)
  · exact (isTruthy_characterization.2 DEFAULT_SETTINGS).2.2.2.2.1.mpr (by decide)

/-- C9: the tags `"#Archived"`, `"archived"` and `" Archived "` all normalize to the
token `"archived"`, and each of them, present as an inline tag, makes the
classifier fire whenever the configured trigger-tag list contains
`"archived"`. -/
theorem tag_normalization_triggers :
    normTag "#Archived" = "archived" ∧ normTag "archived" = "archived" ∧
    normTag " Archived " = "archived" ∧
    (∀ st, "archived" ∈ st.tags →
      ∀ t, t = "#Archived" ∨ t = "archived" ∨ t = " Archived " →
        shouldArchive st (some ⟨none, [t]⟩) = true) := by
  refine ⟨rfl, rfl, rfl, ?_⟩
  intro st hmem t ht
  have htags : st.tags ≠ [] := List.ne_nil_of_mem hmem
  have hT : normTag t = "archived" := by rcases ht with rfl | rfl | rfl <;> rfl
  simp only [shouldArchive, Option.bind, if_neg, htags]
  rw [if_neg (by simp : ¬(false = true)), if_pos (by simpa using htags)]
  rw [List.any_eq_true]
  refine ⟨normTag t, by simp, ?_⟩
  rw [hT, List.elem_iff]
  exact List.mem_map.mpr ⟨"archived", hmem, rfl⟩

/-- C9 witness: each of the three spellings triggers at the default
configuration. -/
theorem tag_normalization_triggers_witness :
    shouldArchive DEFAULT_SETTINGS (some ⟨none, ["#Archived"]⟩) = true ∧
    shouldArchive DEFAULT_SETTINGS (some ⟨none, ["archived"]⟩) = true ∧
    shouldArchive DEFAULT_SETTINGS (some ⟨none, [" Archived "]⟩) = true :=
  ⟨tag_normalization_triggers.2.2.2 DEFAULT_SETTINGS (by decide) _ (Or.inl rfl),
   tag_normalization_triggers.2.2.2 DEFAULT_SETTINGS (by decide) _ (Or.inr (Or.inl rfl)),
   tag_normalization_triggers.2.2.2 DEFAULT_SETTINGS (by decide) _ (Or.inr (Or.inr rfl))⟩

/-- C5: a document under an excluded prefix, or one whose extension is not
`md`, is never transitioned: no outcome other than no-action, no store
change, no move — regardless of what the classifier would say. -/
theorem processFile_skips (st : AutoArchiverSettings) (v : Vault) (f : TFileM)
    (fuel : Nat) (h : isExcluded st f.path = true ∨ f.extension ≠ "md") :
    processFile st v f fuel = some (.noAction, v, f.path) := by
  by_cases hext : f.extension = "md"
  · rcases h with h | h
    · have hb : (f.extension != "md") = false := by simp [hext]
      simp only [processFile, hb, Bool.false_eq_true, if_false, h, if_true]
    · exact absurd hext h
  · have hb : (f.extension != "md") = true := by simpa using hext
    simp only [processFile, hb, if_true]

/-- C5 witness: a `Templates/` note whose metadata satisfies the archive
rules still yields no action when `Templates` is excluded. -/
theorem processFile_skips_witness :
    shouldArchive { DEFAULT_SETTINGS with excludedRoots := ["Templates"] }
      (some ⟨some [("Archived", .bool true)], []⟩) = true ∧
    processFile { DEFAULT_SETTINGS with excludedRoots := ["Templates"] } ⟨["Templates"]⟩
      ⟨"Templates/t.md", "md", some ⟨some [("Archived", .bool true)], []⟩⟩ 3 =
      some (.noAction, ⟨["Templates"]⟩, "Templates/t.md") :=
  ⟨by decide, processFile_skips _ _ _ _ (Or.inl (by decide))⟩

/-- C8: with the dry-run flag set, `processFile` never mutates the store and
never moves the document; when an archive (resp. unarchive) transition is
warranted it reports `wouldArchive` (resp. `wouldUnarchive`) with the
computed target path and stops. -/
theorem processFile_dryRun (st : AutoArchiverSettings) (v : Vault) (f : TFileM)
    (fuel : Nat) (hdry : st.dryRun = true) :
    ∃ out, processFile st v f fuel = some (out, v, f.path) ∧
      (f.extension = "md" → isExcluded st f.path = false →
        shouldArchive st f.cache = true → isInArchive st f.path = false →
        out = .wouldArchive (buildArchiveTarget st.archiveRoot f.path).full) ∧
      (∀ t, f.extension = "md" → isExcluded st f.path = false →
        shouldArchive st f.cache = false → isInArchive st f.path = true →
        st.unarchiveOnMissingAll = true →
        buildUnarchiveTarget st.archiveRoot f.path = some t →
        out = .wouldUnarchive t.full) := by
  by_cases hext : f.extension = "md"
  case neg =>
    have hb : (f.extension != "md") = true := by simpa using hext
    refine ⟨.noAction, by simp only [processFile, hb, if_true], ?_, ?_⟩
    · intro h; exact absurd h hext
    · intro t h; exact absurd h hext
  case pos =>
  have hb : (f.extension != "md") = false := by simp [hext]
  by_cases hexc : isExcluded st f.path = true
  case pos =>
    refine ⟨.noAction,
      by simp only [processFile, hb, Bool.false_eq_true, if_false, hexc, if_true],
      ?_, ?_⟩
    · intro _ h; rw [hexc] at h; exact absurd h (by simp)
    · intro t _ h; rw [hexc] at h; exact absurd h (by simp)
  case neg =>
  have hexc' : isExcluded st f.path = false := Bool.eq_false_iff.mpr hexc
  by_cases hwant : shouldArchive st f.cache = true
  · by_cases hin : isInArchive st f.path = true
    · refine ⟨.noAction, ?_, ?_, ?_⟩
      · simp [processFile, hb, hexc', hwant, hin]
      · intro _ _ _ h; rw [hin] at h; exact absurd h (by simp)
      · intro t _ _ h; rw [hwant] at h; exact absurd h (by simp)
    · have hin' : isInArchive st f.path = false := Bool.eq_false_iff.mpr hin
      refine ⟨.wouldArchive (buildArchiveTarget st.archiveRoot f.path).full, ?_,
        fun _ _ _ _ => rfl, ?_⟩
      · simp [processFile, hb, hexc', hwant, hin', hdry]
      · intro t _ _ h; rw [hwant] at h; exact absurd h (by simp)
  · have hwant' : shouldArchive st f.cache = false := Bool.eq_false_iff.mpr hwant
    by_cases hin : isInArchive st f.path = true
    · by_cases hum : st.unarchiveOnMissingAll = true
      · cases hbu : buildUnarchiveTarget st.archiveRoot f.path with
        | none =>
          refine ⟨.noAction, ?_, ?_, ?_⟩
          · simp [processFile, hb, hexc', hwant', hin, hum, hbu]
          · intro _ _ h; rw [hwant'] at h; exact absurd h (by simp)
          · intro t _ _ _ _ _ h; exact absurd h (by simp)
        | some tgt =>
          refine ⟨.wouldUnarchive tgt.full, ?_, ?_, ?_⟩
          · simp [processFile, hb, hexc', hwant', hin, hum, hbu, hdry]
          · intro _ _ h; rw [hwant'] at h; exact absurd h (by simp)
          · intro t _ _ _ _ _ h
            injection h with h
            rw [h]
      · have hum' : st.unarchiveOnMissingAll = false := Bool.eq_false_iff.mpr hum
        refine ⟨.noAction, ?_, ?_, ?_⟩
        · simp [processFile, hb, hexc', hwant', hin, hum']
        · intro _ _ h; rw [hwant'] at h; exact absurd h (by simp)
        · intro t _ _ _ _ h; rw [hum'] at h; exact absurd h (by simp)
    · have hin' : isInArchive st f.path = false := Bool.eq_false_iff.mpr hin
      refine ⟨.noAction, ?_, ?_, ?_⟩
      · simp [processFile, hb, hexc', hwant', hin']
      · intro _ _ h; rw [hwant'] at h; exact absurd h (by simp)
      · intro t _ _ _ h; rw [hin'] at h; exact absurd h (by simp)

/-- C8 witness: spec's end-to-end scenario 3 — an archivable `Task` note
under dry-run reports `wouldArchive "Archive/Task/TASK-1234.md"` and the
store is returned unchanged. -/
theorem processFile_dryRun_witness :
    processFile { DEFAULT_SETTINGS with dryRun := true }
        ⟨["Task", "Task/TASK-1234.md"]⟩
        ⟨"Task/TASK-1234.md", "md", some ⟨some [("Archived", .bool true)], []⟩⟩ 3 =
      some (.wouldArchive "Archive/Task/TASK-1234.md",
        ⟨["Task", "Task/TASK-1234.md"]⟩, "Task/TASK-1234.md") := by
  obtain ⟨out, heq, hA, hU⟩ := processFile_dryRun
    { DEFAULT_SETTINGS with dryRun := true } ⟨["Task", "Task/TASK-1234.md"]⟩
    ⟨"Task/TASK-1234.md", "md", some ⟨some [("Archived", .bool true)], []⟩⟩ 3 rfl
  have hout : out = .wouldArchive "Archive/Task/TASK-1234.md" := by
    have h2 := hA rfl (by decide) (by decide) (by decide)
    rw [h2]
    rfl
  rw [hout] at heq
  exact heq

/-- Inversion of `processFile`: which branch produced a given result. -/
theorem processFile_inv (st : AutoArchiverSettings) (v : Vault) (f : TFileM)
    (fuel : Nat) (out : TransitionOutcome) (v' : Vault) (p' : String)
    (h : processFile st v f fuel = some (out, v', p')) :
    (out = .noAction ∧ v' = v ∧ p' = f.path) ∨
    (∃ d, out = .archived d ∧ p' = d ∧ f.extension = "md" ∧
      shouldArchive st f.cache = true) ∨
    (∃ d, out = .unarchived d ∧ p' = d ∧ f.extension = "md" ∧
      shouldArchive st f.cache = false ∧ st.unarchiveOnMissingAll = true) ∨
    (∃ q, out = .wouldArchive q ∧ v' = v ∧ p' = f.path) ∨
    (∃ q, out = .wouldUnarchive q ∧ v' = v ∧ p' = f.path) := by
  simp only [processFile] at h
  split at h
  · simp only [Option.some.injEq, Prod.mk.injEq] at h
    exact Or.inl ⟨h.1.symm, h.2.1.symm, h.2.2.symm⟩
  · rename_i hext
    have hext' : f.extension = "md" := by simpa using hext
    split at h
    · simp only [Option.some.injEq, Prod.mk.injEq] at h
      exact Or.inl ⟨h.1.symm, h.2.1.symm, h.2.2.symm⟩
    · split at h
      · rename_i hcond
        have hwant : shouldArchive st f.cache = true :=
          (Bool.and_eq_true ..).mp hcond |>.1
        split at h
        · simp only [Option.some.injEq, Prod.mk.injEq] at h
          exact Or.inr (Or.inr (Or.inr (Or.inl
            ⟨_, h.1.symm, h.2.1.symm, h.2.2.symm⟩)))
        · split at h
          · exact absurd h (by simp)
          · rename_i dest hres
            simp only [Option.some.injEq, Prod.mk.injEq] at h
            exact Or.inr (Or.inl ⟨dest, h.1.symm, h.2.2.symm, hext', hwant⟩)
      · split at h
        · rename_i hcond2
          have hparts := (Bool.and_eq_true ..).mp hcond2
          have hwant : shouldArchive st f.cache = false := by
            have := ((Bool.and_eq_true ..).mp hparts.1).1
            simpa using this
          have hum : st.unarchiveOnMissingAll = true := hparts.2
          split at h
          · simp only [Option.some.injEq, Prod.mk.injEq] at h
            exact Or.inl ⟨h.1.symm, h.2.1.symm, h.2.2.symm⟩
          · split at h
            · simp only [Option.some.injEq, Prod.mk.injEq] at h
              exact Or.inr (Or.inr (Or.inr (Or.inr
                ⟨_, h.1.symm, h.2.1.symm, h.2.2.symm⟩)))
            · split at h
              · exact absurd h (by simp)
              · rename_i dest hres
                simp only [Option.some.injEq, Prod.mk.injEq] at h
                exact Or.inr (Or.inr (Or.inl
                  ⟨dest, h.1.symm, h.2.2.symm, hext', hwant, hum⟩))
        · simp only [Option.some.injEq, Prod.mk.injEq] at h
          exact Or.inl ⟨h.1.symm, h.2.1.symm, h.2.2.symm⟩

/-- C4 (amended): `processFile` is idempotent provided the run is not a dry
run and the first call's move (if any) lands the document on the far side of
the archive-root boundary — an archive destination inside the root, an
unarchive destination outside it.  (The unamended claim fails for dry runs,
which repeat their report, and for documents nested at `<root>/<root>/...`,
whose unarchive destination is still inside the root.)  Under these
conditions a second call with unchanged metadata yields no action and leaves
the store and the path untouched. -/
theorem processFile_idempotent (st : AutoArchiverSettings) (v : Vault) (f : TFileM)
    (fuel : Nat) (out : TransitionOutcome) (v' : Vault) (p' : String)
    (hdry : st.dryRun = false)
    (h : processFile st v f fuel = some (out, v', p'))
    (hside : out = .noAction ∨
      (∃ d, out = .archived d ∧ isInArchive st d = true) ∨
      (∃ d, out = .unarchived d ∧ isInArchive st d = false)) :
    processFile st v' ⟨p', f.extension, f.cache⟩ fuel = some (.noAction, v', p') := by
  rcases processFile_inv st v f fuel out v' p' h with
    ⟨ho, hv, hp⟩ | ⟨d, ho, hp, hext, hwant⟩ | ⟨d, ho, hp, hext, hwant, hum⟩ |
    ⟨q, ho, hv, hp⟩ | ⟨q, ho, hv, hp⟩
  · subst hv hp
    rw [show (⟨f.path, f.extension, f.cache⟩ : TFileM) = f from rfl, h, ho]
  · obtain ⟨d', hd', hin⟩ : ∃ d', out = .archived d' ∧ isInArchive st d' = true := by
      rcases hside with hs | ⟨d', hd', hin⟩ | ⟨d', hd', hin⟩
      · rw [ho] at hs; exact absurd hs (by simp)
      · exact ⟨d', hd', hin⟩
      · rw [ho] at hd'; exact absurd hd' (by simp)
    have hdd : d' = d := by rw [ho] at hd'; injection hd' with h2; exact h2.symm
    subst hdd hp
    have hb : (f.extension != "md") = false := by simp [hext]
    by_cases hexc : isExcluded st p' = true
    · simp only [processFile, hb, Bool.false_eq_true, if_false, hexc, if_true]
    · have hexc' : isExcluded st p' = false := Bool.eq_false_iff.mpr hexc
      simp [processFile, hb, hexc', hwant, hin]
  · obtain ⟨d', hd', hin⟩ : ∃ d', out = .unarchived d' ∧ isInArchive st d' = false := by
      rcases hside with hs | ⟨d', hd', hin⟩ | ⟨d', hd', hin⟩
      · rw [ho] at hs; exact absurd hs (by simp)
      · rw [ho] at hd'; exact absurd hd' (by simp)
      · exact ⟨d', hd', hin⟩
    have hdd : d' = d := by rw [ho] at hd'; injection hd' with h2; exact h2.symm
    subst hdd hp
    have hb : (f.extension != "md") = false := by simp [hext]
    by_cases hexc : isExcluded st p' = true
    · simp only [processFile, hb, Bool.false_eq_true, if_false, hexc, if_true]
    · have hexc' : isExcluded st p' = false := Bool.eq_false_iff.mpr hexc
      simp [processFile, hb, hexc', hwant, hin]
  · rcases hside with hs | ⟨d', hd', hin⟩ | ⟨d', hd', hin⟩ <;>
      rw [ho] at * <;> simp_all
  · rcases hside with hs | ⟨d', hd', hin⟩ | ⟨d', hd', hin⟩ <;>
      rw [ho] at * <;> simp_all

/-- C4 witness: archiving `Task/x.md` then re-running yields no action. -/
theorem processFile_idempotent_witness :
    processFile DEFAULT_SETTINGS
        ⟨["Archive/Task/x.md", "Archive/Task", "Archive", "Task"]⟩
        ⟨"Archive/Task/x.md", "md", some ⟨some [("Archived", .bool true)], []⟩⟩ 3 =
      some (.noAction, ⟨["Archive/Task/x.md", "Archive/Task", "Archive", "Task"]⟩,
        "Archive/Task/x.md") :=
  processFile_idempotent DEFAULT_SETTINGS ⟨["Task", "Task/x.md"]⟩
    ⟨"Task/x.md", "md", some ⟨some [("Archived", .bool true)], []⟩⟩ 3
    (.archived "Archive/Task/x.md")
    ⟨["Archive/Task/x.md", "Archive/Task", "Archive", "Task"]⟩ "Archive/Task/x.md"
    rfl rfl (Or.inr (Or.inl ⟨"Archive/Task/x.md", rfl, by decide⟩))

/-- C4 counterexample: with the default configuration (not a dry run) a
document at `Archive/Archive/x.md` with no matching metadata is unarchived
to `Archive/x.md`, and a second call with unchanged metadata unarchives
AGAIN (to `x.md`) instead of yielding no action. -/
theorem processFile_idempotent_counterexample :
    processFile DEFAULT_SETTINGS ⟨["Archive", "Archive/Archive", "Archive/Archive/x.md"]⟩
        ⟨"Archive/Archive/x.md", "md", none⟩ 3 =
      some (.unarchived "Archive/x.md",
        ⟨["Archive/x.md", "Archive", "Archive/Archive"]⟩, "Archive/x.md") ∧
    processFile DEFAULT_SETTINGS ⟨["Archive/x.md", "Archive", "Archive/Archive"]⟩
        ⟨"Archive/x.md", "md", none⟩ 3 =
      some (.unarchived "x.md", ⟨["x.md", "Archive", "Archive/Archive"]⟩, "x.md") ∧
    TransitionOutcome.unarchived "x.md" ≠ .noAction :=
  ⟨rfl, rfl, by decide⟩

/-- C1 (amended): `scanAll` has no per-document catch: a failure while
processing one document propagates and aborts the rest of the scan (the
error is caught only at the whole-scan boundary, by the callers'
`scanAll().catch(reportError)`), and no aggregate counts survive; when a
document is processed successfully the loop continues, tallying the
containment transition. -/
theorem scanAll_error_propagation (st : AutoArchiverSettings) (fuel : Nat) :
    (∀ v f rest a u, processFile st v f fuel = none →
      scanAllLoop st fuel (f :: rest) v a u = none) ∧
    (∀ v f rest a u out v' p', processFile st v f fuel = some (out, v', p') →
      scanAllLoop st fuel (f :: rest) v a u =
        scanAllLoop st fuel rest v'
          (if !isInArchive st f.path && isInArchive st p' then a + 1 else a)
          (if isInArchive st f.path && !isInArchive st p' then u + 1 else u)) := by
  constructor
  · intro v f rest a u h
    simp only [scanAllLoop, h]
  · intro v f rest a u out v' p' h
    simp only [scanAllLoop, h]

/-- C1 witness: a document whose collision probing never finds a free slot
(exhausted fuel, standing for the store call that throws) aborts the scan. -/
theorem scanAll_error_propagation_witness :
    scanAllLoop DEFAULT_SETTINGS 1
      [⟨"b.md", "md", some ⟨some [("Archived", .bool true)], []⟩⟩]
      ⟨["Archive", "Archive/b.md", "Archive/b (1).md"]⟩ 0 0 = none :=
  (scanAll_error_propagation DEFAULT_SETTINGS 1).1
    ⟨["Archive", "Archive/b.md", "Archive/b (1).md"]⟩
    ⟨"b.md", "md", some ⟨some [("Archived", .bool true)], []⟩⟩ [] 0 0 rfl

/-- C1 counterexample: scanning `[b.md, c.md]` where `b.md` fails (its
collision probing exhausts the fuel) and `c.md` would archive fine: the
code's scan returns no result at all — the failure aborts the scan and the
successfully archivable `c.md` is never counted — whereas the claim's
per-document-catch scan finishes with `archived = 1`. -/
theorem scanAll_abort_counterexample :
    scanAll DEFAULT_SETTINGS ⟨["Archive", "Archive/b.md", "Archive/b (1).md"]⟩
      [⟨"b.md", "md", some ⟨some [("Archived", .bool true)], []⟩⟩,
       ⟨"c.md", "md", some ⟨some [("Archived", .bool true)], []⟩⟩] 1 = none ∧
    scanAllSpecLoop DEFAULT_SETTINGS 1
      [⟨"b.md", "md", some ⟨some [("Archived", .bool true)], []⟩⟩,
       ⟨"c.md", "md", some ⟨some [("Archived", .bool true)], []⟩⟩]
      ⟨["Archive", "Archive/b.md", "Archive/b (1).md"]⟩ 0 0 =
      (1, 0, ⟨["Archive/c.md", "Archive", "Archive/b.md", "Archive/b (1).md"]⟩) ∧
    (none : Option (Nat × Nat × Vault)) ≠
      some (1, 0, ⟨["Archive/c.md", "Archive", "Archive/b.md", "Archive/b (1).md"]⟩) :=
  ⟨rfl, rfl, by decide⟩

/-- C3 witness: `Task/TASK-1234.md` archives to `Archive/Task/TASK-1234.md`
and unarchiving that target restores `Task/TASK-1234.md`. -/
theorem archiveUnarchive_roundTrip_witness :
    ∃ t : Target,
      buildUnarchiveTarget "Archive"
        (buildArchiveTarget "Archive" "Task/TASK-1234.md").full = some t ∧
      t.full = "Task/TASK-1234.md" :=
  archiveUnarchive_roundTrip ["Task"] "TASK-1234.md" ["Archive"]
    (by decide) (by decide) (by decide) (by decide)

end AutoArchiver
